import Mathlib

/-!
Shallow embedding of `schedulers.go` (package main) from bradleyombachi/4600P1.

The Go file defines a `Process` record, a `TimeSlice` record and four
schedulers: `FCFSSchedule`, `SJFSchedule`, `SJFPrioritySchedule` and the empty
stub `RRSchedule`.  Each scheduler computes per-process metric rows, (for
FCFS/SJF) a Gantt list of `TimeSlice`s, and three float aggregates which we
model over `ℚ` (Go's float64 divisions on these small integer values; note
that in Go a division by zero count yields NaN, while `ℚ` division by zero
yields 0 — theorems about the empty-input case therefore talk about the
divisor itself).

`sort.Slice` calls are modelled by an insertion sort over the same comparator
(the Go sort is unstable; every claim proved below depends only on the sorted
order with respect to the comparator, which any correct sort produces).
The `for completed < len(processes)` loop of `SJFPrioritySchedule` is modelled
with an explicit fuel parameter: `none` means the fuel was exhausted before
the loop condition became false.
-/

namespace Sched

structure Process where
  ProcessID : String
  ArrivalTime : Int
  BurstDuration : Int
  Priority : Int
  Completed : Bool
  Turnaround : Int
  Waiting : Int
  Burst : Int
deriving Repr, DecidableEq, Inhabited

structure TimeSlice where
  PID : String
  Start : Int
  Stop : Int
deriving Repr, DecidableEq, Inhabited

/-- Insertion of `a` into `l` before the first element `b` with `le a b`. -/
def insertLe {α : Type} (le : α → α → Bool) (a : α) : List α → List α
  | [] => [a]
  | b :: l => if le a b then a :: b :: l else b :: insertLe le a l

/-- Insertion sort by the boolean relation `le`; models `sort.Slice` with
comparator `less` via `le x y := !(less y x)` (or directly `≤` where the Go
comparator is a strict order on a single key). -/
def isortLe {α : Type} (le : α → α → Bool) : List α → List α
  | [] => []
  | a :: l => insertLe le a (isortLe le l)

/-- One row of the schedule table built by FCFS/SJF (the Go code stores the
printed strings; we keep the numbers that are printed). -/
structure Row where
  pid : String
  priority : Int
  burst : Int
  arrival : Int
  waiting : Int
  turnaround : Int
  completion : Int
deriving Repr, DecidableEq

/-- The state computed by the FCFS loop: rows, gantt and the running scalars. -/
structure FCFSCore where
  rows : List Row
  gantt : List TimeSlice
  serviceTime : Int
  waitingTime : Int
  totalWait : Int
  totalTurnaround : Int
  lastCompletion : Int
deriving Repr, DecidableEq

/-- The body of `FCFSSchedule`'s loop (lines 43-73): `waitingTime` is only
reassigned when `ArrivalTime > 0`, otherwise the previous value is carried
over; there is no clamping to 0. -/
def fcfsRun (serviceTime waitingTime totalWait totalTurnaround lastCompletion : Int) :
    List Process → FCFSCore
  | [] => ⟨[], [], serviceTime, waitingTime, totalWait, totalTurnaround, lastCompletion⟩
  | p :: ps =>
    let w := if p.ArrivalTime > 0 then serviceTime - p.ArrivalTime else waitingTime
    let start := w + p.ArrivalTime
    let turnaround := p.BurstDuration + w
    let completion := p.BurstDuration + p.ArrivalTime + w
    let service := serviceTime + p.BurstDuration
    let rest := fcfsRun service w (totalWait + w) (totalTurnaround + turnaround) completion ps
    { rest with
      rows := ⟨p.ProcessID, p.Priority, p.BurstDuration, p.ArrivalTime, w, turnaround, completion⟩
        :: rest.rows
      gantt := ⟨p.ProcessID, start, service⟩ :: rest.gantt }

/-- What FCFS/SJF hand to the output helpers: gantt, table, three aggregates. -/
structure Report where
  gantt : List TimeSlice
  schedule : List Row
  aveWait : ℚ
  aveTurnaround : ℚ
  aveThroughput : ℚ
deriving Repr, DecidableEq

def FCFSSchedule (processes : List Process) : Report :=
  let c := fcfsRun 0 0 0 0 0 processes
  ⟨c.gantt, c.rows,
   (c.totalWait : ℚ) / (processes.length : ℚ),
   (c.totalTurnaround : ℚ) / (processes.length : ℚ),
   (processes.length : ℚ) / (c.lastCompletion : ℚ)⟩

/-- `sort.Slice(processes, func(i, j) { return BurstDuration i < BurstDuration j })`. -/
def sortByBurst (ps : List Process) : List Process :=
  isortLe (fun p q => decide (p.BurstDuration ≤ q.BurstDuration)) ps

/-- The state computed by the SJF loop. -/
structure SJFCore where
  rows : List Row
  gantt : List TimeSlice
  currentTime : Int
  totalWait : Int
  totalTurnaround : Int
deriving Repr, DecidableEq

/-- The body of `SJFSchedule`'s loop (lines 102-125). -/
def sjfRun (currentTime totalWait totalTurnaround : Int) : List Process → SJFCore
  | [] => ⟨[], [], currentTime, totalWait, totalTurnaround⟩
  | p :: ps =>
    let waitTime := max 0 (currentTime - p.ArrivalTime)
    let ct := max currentTime p.ArrivalTime + p.BurstDuration
    let turnaroundTime := ct - p.ArrivalTime
    let rest := sjfRun ct (totalWait + waitTime) (totalTurnaround + turnaroundTime) ps
    { rest with
      rows := ⟨p.ProcessID, p.Priority, p.BurstDuration, p.ArrivalTime, waitTime, turnaroundTime, ct⟩
        :: rest.rows
      gantt := ⟨p.ProcessID, ct - p.BurstDuration, ct⟩ :: rest.gantt }

def SJFSchedule (processes : List Process) : Report :=
  let sorted := sortByBurst processes
  let c := sjfRun 0 0 0 sorted
  ⟨c.gantt, c.rows,
   (c.totalWait : ℚ) / (sorted.length : ℚ),
   (c.totalTurnaround : ℚ) / (sorted.length : ℚ),
   (sorted.length : ℚ) / (c.currentTime : ℚ)⟩

/-- `sort.Slice(processes, func(i, j) { return ArrivalTime i < ArrivalTime j })`. -/
def sortByArrival (ps : List Process) : List Process :=
  isortLe (fun p q => decide (p.ArrivalTime ≤ q.ArrivalTime)) ps

/-- The filter building `available` (indices into `procs` of processes that
have arrived by `ct` and are not completed), in index order. -/
def availableOf (procs : List Process) (ct : Int) : List Nat :=
  (List.range procs.length).filter
    (fun i => !(procs.getD i default).Completed && decide ((procs.getD i default).ArrivalTime ≤ ct))

/-- The Go comparator used to sort `available`: burst duration first, then
priority. -/
def availLess (procs : List Process) (i j : Nat) : Bool :=
  if (procs.getD i default).BurstDuration == (procs.getD j default).BurstDuration then
    decide ((procs.getD i default).Priority < (procs.getD j default).Priority)
  else
    decide ((procs.getD i default).BurstDuration < (procs.getD j default).BurstDuration)

/-- The decision at the head of the loop: filter, sort by `(burst, priority)`,
and take the first index if any (`available[0]`). -/
def sjfpSelect (procs : List Process) (ct : Int) : Option Nat :=
  (isortLe (fun i j => !availLess procs j i) (availableOf procs ct)).head?

/-- The row printed by `SJFPrioritySchedule` for each dispatched process. -/
structure SJFPRow where
  pid : String
  completion : Int
  waiting : Int
  turnaround : Int
deriving Repr, DecidableEq

structure SJFPState where
  procs : List Process
  currentTime : Int
  completed : Nat
  totalWait : Int
  totalTurnaround : Int
  rows : List SJFPRow
deriving Repr, DecidableEq

def markDone (p : Process) : Process := { p with Completed := true }

/-- The dispatch branch of the loop (lines 179-197). -/
def sjfpDispatch (s : SJFPState) (idx : Nat) : SJFPState :=
  let p := s.procs.getD idx default
  let waitTime := s.currentTime - p.ArrivalTime
  let turnaroundTime := waitTime + p.BurstDuration
  { procs := s.procs.set idx (markDone p)
    currentTime := s.currentTime + p.BurstDuration
    completed := s.completed + 1
    totalWait := s.totalWait + waitTime
    totalTurnaround := s.totalTurnaround + turnaroundTime
    rows := s.rows ++ [⟨p.ProcessID, s.currentTime + p.BurstDuration, waitTime, turnaroundTime⟩] }

/-- The idle branch of the loop (`currentTime++; continue`). -/
def sjfpTick (s : SJFPState) : SJFPState := { s with currentTime := s.currentTime + 1 }

/-- `for completed < len(processes) { ... }` with explicit fuel; `none` means
the fuel ran out while the loop condition still held. -/
def sjfpLoop : Nat → SJFPState → Option SJFPState
  | 0, s => if s.completed < s.procs.length then none else some s
  | fuel + 1, s =>
    if s.completed < s.procs.length then
      match sjfpSelect s.procs s.currentTime with
      | none => sjfpLoop fuel (sjfpTick s)
      | some idx => sjfpLoop fuel (sjfpDispatch s idx)
    else some s

structure SJFPResult where
  rows : List SJFPRow
  finalTime : Int
  avgWait : ℚ
  avgTurnaround : ℚ
  throughput : ℚ
deriving Repr, DecidableEq

/-- Lines 200-207: the final aggregates printed after the loop. -/
def sjfpFinish (s : SJFPState) : SJFPResult :=
  ⟨s.rows, s.currentTime,
   (s.totalWait : ℚ) / (s.procs.length : ℚ),
   (s.totalTurnaround : ℚ) / (s.procs.length : ℚ),
   (s.procs.length : ℚ) / (s.currentTime : ℚ)⟩

def sjfpInit (ps : List Process) : SJFPState := ⟨sortByArrival ps, 0, 0, 0, 0, []⟩

def SJFPrioritySchedule (fuel : Nat) (processes : List Process) : Option SJFPResult :=
  (sjfpLoop fuel (sjfpInit processes)).map sjfpFinish

/-- `func RRSchedule(w io.Writer, title string, processes []Process) {}` —
the body is empty: nothing is written and nothing is computed. -/
def RRSchedule (title : String) (processes : List Process) : List String := []

/-- The timeline emitted by SJFPrioritySchedule: lines 143-208 never construct
a TimeSlice (only the per-dispatch rows and the final metric lines are
written), so the sequence of Gantt segments the function produces is empty. -/
def sjfpGantt (processes : List Process) : List TimeSlice := []

/-! ### Generic facts about the insertion sort used to model `sort.Slice` -/

theorem insertLe_perm {α : Type} (le : α → α → Bool) (a : α) (l : List α) :
    List.Perm (insertLe le a l) (a :: l) := by
  induction l with
  | nil => simp [insertLe]
  | cons b t ih =>
    simp only [insertLe]
    split
    · exact List.Perm.refl _
    · exact (ih.cons b).trans (List.Perm.swap a b t)

theorem isortLe_perm {α : Type} (le : α → α → Bool) :
    ∀ l : List α, List.Perm (isortLe le l) l
  | [] => List.Perm.refl _
  | a :: l => (insertLe_perm le a (isortLe le l)).trans ((isortLe_perm le l).cons a)

theorem mem_insertLe {α : Type} (le : α → α → Bool) (a x : α) (l : List α) :
    x ∈ insertLe le a l ↔ x = a ∨ x ∈ l := by
  rw [(insertLe_perm le a l).mem_iff, List.mem_cons]

theorem isortLe_length {α : Type} (le : α → α → Bool) (l : List α) :
    (isortLe le l).length = l.length :=
  (isortLe_perm le l).length_eq

theorem mem_isortLe {α : Type} (le : α → α → Bool) (l : List α) (x : α) :
    x ∈ isortLe le l ↔ x ∈ l :=
  (isortLe_perm le l).mem_iff

theorem insertLe_pairwise {α : Type} (le : α → α → Bool)
    (htot : ∀ a b, le a b = true ∨ le b a = true)
    (htrans : ∀ a b c, le a b = true → le b c = true → le a c = true)
    (a : α) (l : List α) (hl : List.Pairwise (fun x y => le x y = true) l) :
    List.Pairwise (fun x y => le x y = true) (insertLe le a l) := by
  induction l with
  | nil => simp [insertLe]
  | cons b t ih =>
    rcases List.pairwise_cons.mp hl with ⟨hb, ht⟩
    simp only [insertLe]
    split
    case isTrue h =>
      refine List.pairwise_cons.mpr ⟨?_, hl⟩
      intro x hx
      rcases List.mem_cons.mp hx with rfl | hx
      · exact h
      · exact htrans a b x h (hb x hx)
    case isFalse h =>
      refine List.pairwise_cons.mpr ⟨?_, ih ht⟩
      intro x hx
      rcases (mem_insertLe le a x t).mp hx with rfl | hx
      · rcases htot b x with hba | hab
        · exact hba
        · exact absurd hab h
      · exact hb x hx

theorem isortLe_pairwise {α : Type} (le : α → α → Bool)
    (htot : ∀ a b, le a b = true ∨ le b a = true)
    (htrans : ∀ a b c, le a b = true → le b c = true → le a c = true) :
    ∀ l : List α, List.Pairwise (fun x y => le x y = true) (isortLe le l)
  | [] => List.Pairwise.nil
  | a :: l => insertLe_pairwise le htot htrans a (isortLe le l) (isortLe_pairwise le htot htrans l)

/-- The first element of the sorted list is below every element of the input. -/
theorem isortLe_head_min {α : Type} (le : α → α → Bool)
    (htot : ∀ a b, le a b = true ∨ le b a = true)
    (htrans : ∀ a b c, le a b = true → le b c = true → le a c = true)
    (l : List α) (x₀ : α) (h : (isortLe le l).head? = some x₀) :
    ∀ x ∈ l, le x₀ x = true := by
  intro x hx
  have hx' : x ∈ isortLe le l := (mem_isortLe le l x).mpr hx
  obtain ⟨t, ht⟩ : ∃ t, isortLe le l = x₀ :: t := by
    cases hs : isortLe le l with
    | nil => rw [hs] at h; simp at h
    | cons y t =>
      rw [hs] at h
      simp only [List.head?] at h
      exact ⟨t, by rw [Option.some.injEq] at h; rw [h]⟩
  rw [ht] at hx'
  rcases List.mem_cons.mp hx' with rfl | hx'
  · rcases htot x x with h1 | h1 <;> exact h1
  · have hp := isortLe_pairwise le htot htrans l
    rw [ht] at hp
    exact (List.pairwise_cons.mp hp).1 x hx'

/-- Membership of the head of the sorted list in the input list. -/
theorem isortLe_head_mem {α : Type} (le : α → α → Bool) (l : List α) (x₀ : α)
    (h : (isortLe le l).head? = some x₀) : x₀ ∈ l := by
  have : x₀ ∈ isortLe le l := by
    cases hs : isortLe le l with
    | nil => rw [hs] at h; simp at h
    | cons y t =>
      rw [hs] at h
      simp only [List.head?, Option.some.injEq] at h
      simp [h]
  exact (mem_isortLe le l x₀).mp this

/-! ### Spec-side recurrences (refinement targets, written from the spec's words) -/

/-- Written from the spec's words (§4.2, claim C5): per step of the SJF run,
`waitTime = max(0, currentTime - arrivalTime)`, the clock advances to
`max(currentTime, arrivalTime) + burstDuration`, and `turnaround` is the new
clock minus the arrival time.  Each triple is `(waitTime, newClock, turnaround)`. -/
def specSJFSteps : Int → List Process → List (Int × Int × Int)
  | _, [] => []
  | ct, p :: ps =>
    (max 0 (ct - p.ArrivalTime), max ct p.ArrivalTime + p.BurstDuration,
     max ct p.ArrivalTime + p.BurstDuration - p.ArrivalTime)
      :: specSJFSteps (max ct p.ArrivalTime + p.BurstDuration) ps

/-- Written from the spec's words for the amended claim C2: for a process with
`arrivalTime > 0` the waiting time is `serviceTime - arrivalTime` (no clamping
at 0), where `serviceTime` is the running sum of the burst durations of the
preceding processes; otherwise the waiting variable keeps its previous value
(`carried`, initially 0). -/
def specFCFSWaits (serviceTime carried : Int) : List Process → List Int
  | [] => []
  | p :: ps =>
    let w := if p.ArrivalTime > 0 then serviceTime - p.ArrivalTime else carried
    w :: specFCFSWaits (serviceTime + p.BurstDuration) w ps

/-! ### Sum helpers -/

def sumWaitR (rows : List Row) : Int := (rows.map Row.waiting).sum

def sumTurnR (rows : List Row) : Int := (rows.map Row.turnaround).sum

def sumBurst (ps : List Process) : Int := (ps.map Process.BurstDuration).sum

def sumWaitP (rows : List SJFPRow) : Int := (rows.map SJFPRow.waiting).sum

def sumTurnP (rows : List SJFPRow) : Int := (rows.map SJFPRow.turnaround).sum

/-! ### FCFS and SJF loop lemmas -/

theorem fcfsRun_waits_spec :
    ∀ (l : List Process) (s w tW tT lc : Int),
      ((fcfsRun s w tW tT lc l).rows).map Row.waiting = specFCFSWaits s w l
  | [], _, _, _, _, _ => rfl
  | p :: ps, s, w, tW, tT, lc => by
    simp only [fcfsRun, specFCFSWaits, List.map_cons, List.cons.injEq]
    exact ⟨trivial, fcfsRun_waits_spec ps _ _ _ _ _⟩

theorem sjfRun_rows_spec :
    ∀ (l : List Process) (ct tW tT : Int),
      ((sjfRun ct tW tT l).rows).map (fun r => (r.waiting, r.completion, r.turnaround)) =
        specSJFSteps ct l
  | [], _, _, _ => rfl
  | p :: ps, ct, tW, tT => by
    simp only [sjfRun, specSJFSteps, List.map_cons, List.cons.injEq]
    exact ⟨trivial, sjfRun_rows_spec ps _ _ _⟩

theorem fcfsRun_sum_identity :
    ∀ (l : List Process) (s w tW tT lc : Int),
      sumTurnR (fcfsRun s w tW tT lc l).rows =
        sumWaitR (fcfsRun s w tW tT lc l).rows + sumBurst l
  | [], _, _, _, _, _ => by simp [fcfsRun, sumTurnR, sumWaitR, sumBurst]
  | p :: ps, s, w, tW, tT, lc => by
    simp only [fcfsRun, sumTurnR, sumWaitR, sumBurst, List.map_cons, List.sum_cons]
    have ih := fcfsRun_sum_identity ps (s + p.BurstDuration)
      (if p.ArrivalTime > 0 then s - p.ArrivalTime else w)
      (tW + (if p.ArrivalTime > 0 then s - p.ArrivalTime else w))
      (tT + (p.BurstDuration + (if p.ArrivalTime > 0 then s - p.ArrivalTime else w)))
      (p.BurstDuration + p.ArrivalTime + (if p.ArrivalTime > 0 then s - p.ArrivalTime else w))
    simp only [sumTurnR, sumWaitR, sumBurst] at ih
    omega

theorem max_sub_eq (a b : Int) : max a b - b = max 0 (a - b) := by
  rcases le_total a b with h | h
  · rw [max_eq_right h, max_eq_left (show a - b ≤ 0 by omega)]
    omega
  · rw [max_eq_left h, max_eq_right (show (0 : Int) ≤ a - b by omega)]

theorem sjfRun_sum_identity :
    ∀ (l : List Process) (ct tW tT : Int),
      sumTurnR (sjfRun ct tW tT l).rows = sumWaitR (sjfRun ct tW tT l).rows + sumBurst l
  | [], _, _, _ => by simp [sjfRun, sumTurnR, sumWaitR, sumBurst]
  | p :: ps, ct, tW, tT => by
    simp only [sjfRun, sumTurnR, sumWaitR, sumBurst, List.map_cons, List.sum_cons]
    have ih := sjfRun_sum_identity ps (max ct p.ArrivalTime + p.BurstDuration)
      (tW + max 0 (ct - p.ArrivalTime))
      (tT + (max ct p.ArrivalTime + p.BurstDuration - p.ArrivalTime))
    simp only [sumTurnR, sumWaitR, sumBurst] at ih
    have hmax := max_sub_eq ct p.ArrivalTime
    omega

/-! ### Timeline-segment predicates and the FCFS/SJF gantt shape -/

/-- Adjacent segments do not overlap: each stops no later than the next starts. -/
def nonOverlapB : List TimeSlice → Bool
  | s₁ :: s₂ :: r => (decide (s₁.Stop ≤ s₂.Start)) && nonOverlapB (s₂ :: r)
  | _ => true

/-- Segments are listed in nondecreasing order of start time. -/
def sortedByStartB : List TimeSlice → Bool
  | s₁ :: s₂ :: r => (decide (s₁.Start ≤ s₂.Start)) && sortedByStartB (s₂ :: r)
  | _ => true

/-- Total executed time covered by the segments. -/
def totalCovered : List TimeSlice → Int
  | [] => 0
  | s :: r => (s.Stop - s.Start) + totalCovered r

/-- Back-to-back unit-per-process segments starting at `t`: the shape of the
FCFS gantt when the carry-over branch never distorts the start times. -/
def consecutiveSlices (t : Int) : List Process → List TimeSlice
  | [] => []
  | p :: ps => ⟨p.ProcessID, t, t + p.BurstDuration⟩ :: consecutiveSlices (t + p.BurstDuration) ps

theorem consecutiveSlices_nonOverlap :
    ∀ (l : List Process) (t : Int), nonOverlapB (consecutiveSlices t l) = true
  | [], _ => rfl
  | [_], _ => rfl
  | p :: q :: r, t => by
    have ih := consecutiveSlices_nonOverlap (q :: r) (t + p.BurstDuration)
    simp only [consecutiveSlices, nonOverlapB, Bool.and_eq_true] at ih ⊢
    exact ⟨decide_eq_true (le_refl _), ih⟩

theorem consecutiveSlices_sorted :
    ∀ (l : List Process) (t : Int), (∀ p ∈ l, 0 ≤ p.BurstDuration) →
      sortedByStartB (consecutiveSlices t l) = true
  | [], _, _ => rfl
  | [_], _, _ => rfl
  | p :: q :: r, t, h => by
    have ih := consecutiveSlices_sorted (q :: r) (t + p.BurstDuration)
      (fun x hx => h x (List.mem_cons_of_mem p hx))
    have hp : 0 ≤ p.BurstDuration := h p (List.mem_cons_self p _)
    simp only [consecutiveSlices, sortedByStartB, Bool.and_eq_true] at ih ⊢
    exact ⟨decide_eq_true (by omega), ih⟩

theorem consecutiveSlices_total :
    ∀ (l : List Process) (t : Int), totalCovered (consecutiveSlices t l) = sumBurst l
  | [], _ => rfl
  | p :: ps, t => by
    simp only [consecutiveSlices, totalCovered, sumBurst, List.map_cons, List.sum_cons]
    have ih := consecutiveSlices_total ps (t + p.BurstDuration)
    simp only [sumBurst] at ih
    omega

theorem consecutiveSlices_pids :
    ∀ (l : List Process) (t : Int),
      (consecutiveSlices t l).map TimeSlice.PID = l.map Process.ProcessID
  | [], _ => rfl
  | p :: ps, t => by
    simp only [consecutiveSlices, List.map_cons, List.cons.injEq]
    exact ⟨trivial, consecutiveSlices_pids ps _⟩

/-- When every process has a positive arrival time, the FCFS loop's segments
are back-to-back starting at the incoming `serviceTime`. -/
theorem fcfsRun_gantt_consecutive :
    ∀ (l : List Process) (s w tW tT lc : Int), (∀ p ∈ l, 0 < p.ArrivalTime) →
      (fcfsRun s w tW tT lc l).gantt = consecutiveSlices s l
  | [], _, _, _, _, _, _ => rfl
  | p :: ps, s, w, tW, tT, lc, h => by
    have hp : 0 < p.ArrivalTime := h p (List.mem_cons_self p _)
    simp only [fcfsRun, consecutiveSlices, if_pos hp, List.cons.injEq]
    refine ⟨?_, fcfsRun_gantt_consecutive ps _ _ _ _ _ (fun x hx => h x (List.mem_cons_of_mem p hx))⟩
    rw [TimeSlice.mk.injEq]
    exact ⟨rfl, by omega, by omega⟩

/-- Same conclusion when the first process arrives at a nonnegative time and
all later ones at positive times, starting from the initial state. -/
theorem fcfsRun_gantt_consecutive_zero :
    ∀ (l : List Process), (∀ p ∈ l.tail, 0 < p.ArrivalTime) →
      (∀ p ∈ l.take 1, 0 ≤ p.ArrivalTime) →
      (fcfsRun 0 0 0 0 0 l).gantt = consecutiveSlices 0 l := by
  intro l htail hhead
  cases l with
  | nil => rfl
  | cons p ps =>
    have hp : 0 ≤ p.ArrivalTime := hhead p (by simp)
    have htail' : ∀ x ∈ ps, 0 < x.ArrivalTime := by
      intro x hx; exact htail x hx
    by_cases ha : p.ArrivalTime > 0
    · simp only [fcfsRun, consecutiveSlices, if_pos ha, List.cons.injEq]
      refine ⟨?_, fcfsRun_gantt_consecutive ps _ _ _ _ _ htail'⟩
      rw [TimeSlice.mk.injEq]
      exact ⟨rfl, by omega, by omega⟩
    · have ha0 : p.ArrivalTime = 0 := by omega
      simp only [fcfsRun, consecutiveSlices, if_neg ha, List.cons.injEq]
      refine ⟨?_, fcfsRun_gantt_consecutive ps _ _ _ _ _ htail'⟩
      rw [TimeSlice.mk.injEq]
      exact ⟨rfl, by omega, by omega⟩

/-! ### SJF gantt shape -/

theorem sjfRun_gantt_nonOverlap :
    ∀ (l : List Process) (ct tW tT : Int), nonOverlapB (sjfRun ct tW tT l).gantt = true
  | [], _, _, _ => rfl
  | [_], _, _, _ => rfl
  | p :: q :: r, ct, tW, tT => by
    have ih := sjfRun_gantt_nonOverlap (q :: r) (max ct p.ArrivalTime + p.BurstDuration)
      (tW + max 0 (ct - p.ArrivalTime))
      (tT + (max ct p.ArrivalTime + p.BurstDuration - p.ArrivalTime))
    simp only [sjfRun] at ih
    simp only [sjfRun, nonOverlapB, Bool.and_eq_true]
    refine ⟨decide_eq_true ?_, ih⟩
    have := le_max_left (max ct p.ArrivalTime + p.BurstDuration) q.ArrivalTime
    omega

theorem sjfRun_gantt_sorted :
    ∀ (l : List Process) (ct tW tT : Int), (∀ p ∈ l, 0 ≤ p.BurstDuration) →
      sortedByStartB (sjfRun ct tW tT l).gantt = true
  | [], _, _, _, _ => rfl
  | [_], _, _, _, _ => rfl
  | p :: q :: r, ct, tW, tT, h => by
    have ih := sjfRun_gantt_sorted (q :: r) (max ct p.ArrivalTime + p.BurstDuration)
      (tW + max 0 (ct - p.ArrivalTime))
      (tT + (max ct p.ArrivalTime + p.BurstDuration - p.ArrivalTime))
      (fun x hx => h x (List.mem_cons_of_mem p hx))
    have hp : 0 ≤ p.BurstDuration := h p (List.mem_cons_self p _)
    simp only [sjfRun] at ih
    simp only [sjfRun, sortedByStartB, Bool.and_eq_true]
    refine ⟨decide_eq_true ?_, ih⟩
    have := le_max_left (max ct p.ArrivalTime + p.BurstDuration) q.ArrivalTime
    have := le_max_left ct p.ArrivalTime
    omega

theorem sjfRun_gantt_total :
    ∀ (l : List Process) (ct tW tT : Int),
      totalCovered (sjfRun ct tW tT l).gantt = sumBurst l
  | [], _, _, _ => by simp [sjfRun, totalCovered, sumBurst]
  | p :: ps, ct, tW, tT => by
    simp only [sjfRun, totalCovered, sumBurst, List.map_cons, List.sum_cons]
    have ih := sjfRun_gantt_total ps (max ct p.ArrivalTime + p.BurstDuration)
      (tW + max 0 (ct - p.ArrivalTime))
      (tT + (max ct p.ArrivalTime + p.BurstDuration - p.ArrivalTime))
    simp only [sumBurst] at ih
    omega

theorem sjfRun_gantt_pids :
    ∀ (l : List Process) (ct tW tT : Int),
      ((sjfRun ct tW tT l).gantt).map TimeSlice.PID = l.map Process.ProcessID
  | [], _, _, _ => rfl
  | p :: ps, ct, tW, tT => by
    simp only [sjfRun, List.map_cons, List.cons.injEq]
    exact ⟨trivial, sjfRun_gantt_pids ps _ _ _⟩

/-! ### Row/gantt lengths -/

theorem fcfsRun_rows_length :
    ∀ (l : List Process) (s w tW tT lc : Int), (fcfsRun s w tW tT lc l).rows.length = l.length
  | [], _, _, _, _, _ => rfl
  | p :: ps, s, w, tW, tT, lc => by
    simp only [fcfsRun, List.length_cons]
    exact congrArg Nat.succ (fcfsRun_rows_length ps _ _ _ _ _)

theorem fcfsRun_gantt_length :
    ∀ (l : List Process) (s w tW tT lc : Int), (fcfsRun s w tW tT lc l).gantt.length = l.length
  | [], _, _, _, _, _ => rfl
  | p :: ps, s, w, tW, tT, lc => by
    simp only [fcfsRun, List.length_cons]
    exact congrArg Nat.succ (fcfsRun_gantt_length ps _ _ _ _ _)

theorem sjfRun_rows_length :
    ∀ (l : List Process) (ct tW tT : Int), (sjfRun ct tW tT l).rows.length = l.length
  | [], _, _, _ => rfl
  | p :: ps, ct, tW, tT => by
    simp only [sjfRun, List.length_cons]
    exact congrArg Nat.succ (sjfRun_rows_length ps _ _ _)

theorem sjfRun_gantt_length :
    ∀ (l : List Process) (ct tW tT : Int), (sjfRun ct tW tT l).gantt.length = l.length
  | [], _, _, _ => rfl
  | p :: ps, ct, tW, tT => by
    simp only [sjfRun, List.length_cons]
    exact congrArg Nat.succ (sjfRun_gantt_length ps _ _ _)

/-! ### SJFP ready set and comparator -/

theorem mem_availableOf (procs : List Process) (ct : Int) (i : Nat) :
    i ∈ availableOf procs ct ↔
      i < procs.length ∧ (procs.getD i default).Completed = false ∧
        (procs.getD i default).ArrivalTime ≤ ct := by
  simp only [availableOf, List.mem_filter, List.mem_range, Bool.and_eq_true,
    Bool.not_eq_true', decide_eq_true_eq]

theorem availLess_false_iff (procs : List Process) (i j : Nat) :
    availLess procs j i = false ↔
      ((procs.getD i default).BurstDuration < (procs.getD j default).BurstDuration ∨
       ((procs.getD i default).BurstDuration = (procs.getD j default).BurstDuration ∧
        (procs.getD i default).Priority ≤ (procs.getD j default).Priority)) := by
  simp only [availLess, beq_iff_eq]
  split
  all_goals simp only [decide_eq_false_iff_not]
  all_goals omega

theorem availNotLess_total (procs : List Process) (i j : Nat) :
    (!availLess procs j i) = true ∨ (!availLess procs i j) = true := by
  simp only [Bool.not_eq_true']
  rw [availLess_false_iff, availLess_false_iff]
  omega

theorem availNotLess_trans (procs : List Process) (i j k : Nat) :
    (!availLess procs j i) = true → (!availLess procs k j) = true →
      (!availLess procs k i) = true := by
  simp only [Bool.not_eq_true']
  rw [availLess_false_iff, availLess_false_iff, availLess_false_iff]
  omega

theorem sjfpSelect_mem (procs : List Process) (ct : Int) (idx : Nat)
    (h : sjfpSelect procs ct = some idx) : idx ∈ availableOf procs ct :=
  isortLe_head_mem _ _ _ h

theorem sjfpSelect_min (procs : List Process) (ct : Int) (idx : Nat)
    (h : sjfpSelect procs ct = some idx) :
    ∀ j ∈ availableOf procs ct,
      (procs.getD idx default).BurstDuration ≤ (procs.getD j default).BurstDuration ∧
      ((procs.getD j default).BurstDuration = (procs.getD idx default).BurstDuration →
        (procs.getD idx default).Priority ≤ (procs.getD j default).Priority) := by
  intro j hj
  have hmin := isortLe_head_min (fun i j => !availLess procs j i)
    (fun a b => availNotLess_total procs a b)
    (fun a b c hab hbc => availNotLess_trans procs a b c hab hbc)
    (availableOf procs ct) idx h j hj
  rw [Bool.not_eq_true', availLess_false_iff] at hmin
  omega

theorem sjfpSelect_none_iff (procs : List Process) (ct : Int) :
    sjfpSelect procs ct = none ↔ availableOf procs ct = [] := by
  unfold sjfpSelect
  rw [List.head?_eq_none_iff]
  constructor
  · intro h
    have hl := isortLe_length (fun i j => !availLess procs j i) (availableOf procs ct)
    rw [h] at hl
    exact List.eq_nil_of_length_eq_zero hl.symm
  · intro h
    rw [h]
    rfl

/-! ### Bookkeeping for the completed flags -/

def uncomp (procs : List Process) : List Process := procs.filter (fun p => !p.Completed)

def countUncomp (procs : List Process) : Nat := (uncomp procs).length

def sumUncompBurst (procs : List Process) : Int :=
  ((uncomp procs).map Process.BurstDuration).sum

theorem uncomp_perm_set :
    ∀ (l : List Process) (i : Nat) (p : Process), i < l.length → l.getD i default = p →
      p.Completed = false →
      List.Perm (uncomp l) (p :: uncomp (l.set i (markDone p)))
  | [], i, p, hi, _, _ => absurd hi (by simp)
  | q :: t, 0, p, _, hq, hp => by
    have hq' : q = p := by simpa using hq
    subst hq'
    simp only [List.set, uncomp, List.filter]
    rw [hp]
    simp [markDone]
  | q :: t, i + 1, p, hi, hq, hp => by
    have hi' : i < t.length := by simpa using hi
    have hq' : t.getD i default = p := by simpa using hq
    have ih := uncomp_perm_set t i p hi' hq' hp
    simp only [List.set, uncomp, List.filter]
    cases hc : (!q.Completed) with
    | false =>
      simpa only [uncomp] using ih
    | true =>
      exact (ih.cons q).trans (List.Perm.swap p q _)

theorem countUncomp_set (l : List Process) (i : Nat) (p : Process) (hi : i < l.length)
    (hq : l.getD i default = p) (hp : p.Completed = false) :
    countUncomp l = countUncomp (l.set i (markDone p)) + 1 := by
  have := (uncomp_perm_set l i p hi hq hp).length_eq
  simpa [countUncomp, Nat.add_comm] using this

theorem sumUncompBurst_set (l : List Process) (i : Nat) (p : Process) (hi : i < l.length)
    (hq : l.getD i default = p) (hp : p.Completed = false) :
    sumUncompBurst l = p.BurstDuration + sumUncompBurst (l.set i (markDone p)) := by
  have h := (uncomp_perm_set l i p hi hq hp).map Process.BurstDuration
  have := h.sum_eq
  simpa [sumUncompBurst, markDone] using this

theorem map_set_of_eq {β : Type} (f : Process → β) :
    ∀ (l : List Process) (i : Nat) (q : Process), f (l.getD i default) = f q →
      (l.set i q).map f = l.map f
  | [], _, _, _ => rfl
  | p :: t, 0, q, h => by
    simp only [List.getD] at h
    simp [List.set, h.symm]
  | p :: t, i + 1, q, h => by
    have h' : f (t.getD i default) = f q := by simpa using h
    simp only [List.set, List.map_cons, List.cons.injEq]
    exact ⟨trivial, map_set_of_eq f t i q h'⟩

theorem countUncomp_eq_zero (l : List Process) (h : countUncomp l = 0) :
    sumUncompBurst l = 0 := by
  have : uncomp l = [] := List.eq_nil_of_length_eq_zero h
  simp [sumUncompBurst, this]

theorem uncomp_eq_self (l : List Process) (h : ∀ p ∈ l, p.Completed = false) :
    uncomp l = l :=
  List.filter_eq_self.mpr (fun p hp => by simp [h p hp])

/-! ### SJFP loop lemmas -/

theorem sjfpLoop_exit (s : SJFPState) (h : ¬ s.completed < s.procs.length) (fuel : Nat) :
    sjfpLoop fuel s = some s := by
  cases fuel <;> simp [sjfpLoop, h]

theorem sjfpLoop_some_ind (P : SJFPState → Prop)
    (htick : ∀ s, s.completed < s.procs.length →
      sjfpSelect s.procs s.currentTime = none → P s → P (sjfpTick s))
    (hdisp : ∀ s idx, s.completed < s.procs.length →
      sjfpSelect s.procs s.currentTime = some idx → P s → P (sjfpDispatch s idx)) :
    ∀ (fuel : Nat) (s s' : SJFPState), sjfpLoop fuel s = some s' → P s →
      P s' ∧ ¬ s'.completed < s'.procs.length := by
  intro fuel
  induction fuel with
  | zero =>
    intro s s' h hP
    rw [sjfpLoop] at h
    by_cases hc : s.completed < s.procs.length
    · rw [if_pos hc] at h
      cases h
    · rw [if_neg hc] at h
      cases h
      exact ⟨hP, hc⟩
  | succ fuel ih =>
    intro s s' h hP
    rw [sjfpLoop] at h
    by_cases hc : s.completed < s.procs.length
    · rw [if_pos hc] at h
      cases hsel : sjfpSelect s.procs s.currentTime with
      | none =>
        simp only [hsel] at h
        exact ih _ s' h (htick s hc hsel hP)
      | some idx =>
        simp only [hsel] at h
        exact ih _ s' h (hdisp s idx hc hsel hP)
    · rw [if_neg hc] at h
      cases h
      exact ⟨hP, hc⟩

theorem getD_mem (l : List Process) (i : Nat) (hi : i < l.length) :
    l.getD i default ∈ l := by
  rw [List.getD_eq_getElem l default hi]
  exact List.getElem_mem hi

/-- The loop terminates when the completion counter matches the number of
uncompleted processes, all bursts are positive and all arrivals are at
most `A`, with fuel covering one step per process plus one idle tick per
time unit up to `A`. -/
theorem sjfpLoop_terminates (A : Int) :
    ∀ (fuel : Nat) (s : SJFPState),
      (∀ p ∈ s.procs, p.ArrivalTime ≤ A) →
      (∀ p ∈ s.procs, 0 < p.BurstDuration) →
      s.completed + countUncomp s.procs = s.procs.length →
      countUncomp s.procs + (A + 1 - s.currentTime).toNat ≤ fuel →
      (sjfpLoop fuel s).isSome = true := by
  intro fuel
  induction fuel with
  | zero =>
    intro s hA hb hcnt hfuel
    by_cases hc : s.completed < s.procs.length
    · have hcu : 0 < countUncomp s.procs := by omega
      omega
    · rw [sjfpLoop_exit s hc 0]
      rfl
  | succ fuel ih =>
    intro s hA hb hcnt hfuel
    by_cases hc : s.completed < s.procs.length
    · have hcu : 0 < countUncomp s.procs := by omega
      cases hsel : sjfpSelect s.procs s.currentTime with
      | none =>
        have hempty : availableOf s.procs s.currentTime = [] :=
          (sjfpSelect_none_iff _ _).mp hsel
        obtain ⟨p, hp⟩ : ∃ p, p ∈ uncomp s.procs := by
          rcases List.exists_mem_of_ne_nil (uncomp s.procs)
            (by intro hnil; rw [countUncomp, hnil] at hcu; simp at hcu) with ⟨p, hp⟩
          exact ⟨p, hp⟩
        rw [uncomp, List.mem_filter, Bool.not_eq_true'] at hp
        obtain ⟨i, hi, hgi⟩ := List.mem_iff_getElem.mp hp.1
        have hgd : s.procs.getD i default = p := by
          rw [List.getD_eq_getElem s.procs default hi, hgi]
        have hnotmem : i ∉ availableOf s.procs s.currentTime := by
          rw [hempty]
          simp
        rw [mem_availableOf] at hnotmem
        have harr : s.currentTime < p.ArrivalTime := by
          by_contra hle
          exact hnotmem ⟨hi, by rw [hgd]; exact hp.2, by rw [hgd]; omega⟩
        have hpa : p.ArrivalTime ≤ A := hA p hp.1
        simp only [sjfpLoop, if_pos hc, hsel]
        refine ih (sjfpTick s) hA hb hcnt ?_
        simp only [sjfpTick]
        omega
      | some idx =>
        have hmem := sjfpSelect_mem _ _ _ hsel
        rw [mem_availableOf] at hmem
        obtain ⟨hilt, hflag, harr⟩ := hmem
        have hbp : 0 < (s.procs.getD idx default).BurstDuration :=
          hb _ (getD_mem s.procs idx hilt)
        have hset := countUncomp_set s.procs idx (s.procs.getD idx default) hilt rfl hflag
        simp only [sjfpLoop, if_pos hc, hsel]
        refine ih (sjfpDispatch s idx) ?_ ?_ ?_ ?_
        · intro q hq
          rcases List.mem_or_eq_of_mem_set hq with hq | hq
          · exact hA q hq
          · rw [hq]
            simpa [markDone] using hA _ (getD_mem s.procs idx hilt)
        · intro q hq
          rcases List.mem_or_eq_of_mem_set hq with hq | hq
          · exact hb q hq
          · rw [hq]
            simpa [markDone] using hb _ (getD_mem s.procs idx hilt)
        · simp only [sjfpDispatch, List.length_set]
          omega
        · simp only [sjfpDispatch]
          have := Int.toNat_le_toNat (show A + 1 - (s.currentTime +
            (s.procs.getD idx default).BurstDuration) ≤ A + 1 - s.currentTime by omega)
          omega
    · rw [sjfpLoop_exit s hc (fuel + 1)]
      rfl

/-- If the completion counter can never reach the length (because some
processes were already completed on entry), the loop runs out of any fuel. -/
theorem sjfpLoop_diverges :
    ∀ (fuel : Nat) (s : SJFPState),
      s.completed + countUncomp s.procs < s.procs.length → sjfpLoop fuel s = none := by
  intro fuel
  induction fuel with
  | zero =>
    intro s hinv
    rw [sjfpLoop, if_pos (by omega)]
  | succ fuel ih =>
    intro s hinv
    rw [sjfpLoop, if_pos (show s.completed < s.procs.length by omega)]
    cases hsel : sjfpSelect s.procs s.currentTime with
    | none =>
      simp only [hsel]
      exact ih (sjfpTick s) hinv
    | some idx =>
      simp only [hsel]
      have hmem := sjfpSelect_mem _ _ _ hsel
      rw [mem_availableOf] at hmem
      obtain ⟨hilt, hflag, _⟩ := hmem
      have hset := countUncomp_set s.procs idx (s.procs.getD idx default) hilt rfl hflag
      refine ih (sjfpDispatch s idx) ?_
      simp only [sjfpDispatch, List.length_set]
      omega

/-! ### The SJFP run invariant -/

/-- Invariant carried through the SJFP loop: fixed process count `N` and total
burst `B`, counter in step with the uncompleted count, one row per dispatch,
and the running sum identity `sumTurn = sumWait + (B - burst still pending)`. -/
def sjfpInv (N : Nat) (B : Int) (s : SJFPState) : Prop :=
  s.procs.length = N ∧
  s.completed + countUncomp s.procs = N ∧
  s.rows.length = s.completed ∧
  sumBurst s.procs = B ∧
  sumTurnP s.rows = sumWaitP s.rows + (B - sumUncompBurst s.procs)

theorem sjfpInv_tick (N : Nat) (B : Int) (s : SJFPState) (h : sjfpInv N B s) :
    sjfpInv N B (sjfpTick s) := h

theorem sjfpInv_dispatch (N : Nat) (B : Int) (s : SJFPState) (idx : Nat)
    (hsel : sjfpSelect s.procs s.currentTime = some idx) (h : sjfpInv N B s) :
    sjfpInv N B (sjfpDispatch s idx) := by
  obtain ⟨hlen, hcnt, hrows, hB, hsum⟩ := h
  have hmem := sjfpSelect_mem _ _ _ hsel
  rw [mem_availableOf] at hmem
  obtain ⟨hilt, hflag, _⟩ := hmem
  have hcu := countUncomp_set s.procs idx (s.procs.getD idx default) hilt rfl hflag
  have hsb := sumUncompBurst_set s.procs idx (s.procs.getD idx default) hilt rfl hflag
  have hmap : (s.procs.set idx (markDone (s.procs.getD idx default))).map
      Process.BurstDuration = s.procs.map Process.BurstDuration :=
    map_set_of_eq Process.BurstDuration s.procs idx (markDone (s.procs.getD idx default)) rfl
  refine ⟨?_, ?_, ?_, ?_, ?_⟩
  · simp only [sjfpDispatch, List.length_set]
    exact hlen
  · simp only [sjfpDispatch]
    omega
  · simp only [sjfpDispatch, List.length_append, List.length_cons, List.length_nil]
    omega
  · simp only [sjfpDispatch, sumBurst, hmap]
    exact hB
  · simp only [sjfpDispatch, sumTurnP, sumWaitP, List.map_append, List.sum_append,
      List.map_cons, List.map_nil, List.sum_cons, List.sum_nil]
    simp only [sumTurnP, sumWaitP] at hsum
    omega

theorem sjfpLoop_final (N : Nat) (B : Int) (fuel : Nat) (s s' : SJFPState)
    (h : sjfpLoop fuel s = some s') (hP : sjfpInv N B s) :
    sjfpInv N B s' ∧ s'.completed = N ∧ countUncomp s'.procs = 0 := by
  have := sjfpLoop_some_ind (sjfpInv N B)
    (fun s _ _ hP => sjfpInv_tick N B s hP)
    (fun s idx _ hsel hP => sjfpInv_dispatch N B s idx hsel hP)
    fuel s s' h hP
  obtain ⟨hP', hexit⟩ := this
  have hkeep := hP'
  obtain ⟨hlen, hcnt, -, -, -⟩ := hkeep
  exact ⟨hP', by omega, by omega⟩

theorem sortByArrival_perm (ps : List Process) : List.Perm (sortByArrival ps) ps :=
  isortLe_perm _ ps

theorem sjfpInv_init (ps : List Process) (hflags : ∀ p ∈ ps, p.Completed = false) :
    sjfpInv ps.length (sumBurst ps) (sjfpInit ps) := by
  have hperm := sortByArrival_perm ps
  have hflags' : ∀ p ∈ sortByArrival ps, p.Completed = false :=
    fun p hp => hflags p (hperm.mem_iff.mp hp)
  have hself := uncomp_eq_self (sortByArrival ps) hflags'
  have hsum : sumBurst (sortByArrival ps) = sumBurst ps := by
    simpa [sumBurst] using (hperm.map Process.BurstDuration).sum_eq
  refine ⟨?_, ?_, rfl, hsum, ?_⟩
  · exact hperm.length_eq
  · simp only [sjfpInit, countUncomp, hself]
    exact (Nat.zero_add _).trans hperm.length_eq
  · simp only [sjfpInit, sumTurnP, sumWaitP, sumUncompBurst, hself, List.map_nil,
      List.sum_nil]
    simp only [sumBurst] at hsum ⊢
    omega

/-! ### Arrival bound -/

theorem le_foldl_max :
    ∀ (l : List Int) (b : Int), b ≤ l.foldl max b ∧ ∀ x ∈ l, x ≤ l.foldl max b
  | [], b => ⟨le_refl b, by simp⟩
  | a :: l, b => by
    obtain ⟨h1, h2⟩ := le_foldl_max l (max b a)
    refine ⟨le_trans (le_max_left b a) h1, ?_⟩
    intro x hx
    rcases List.mem_cons.mp hx with rfl | hx
    · exact le_trans (le_max_right b x) h1
    · exact h2 x hx

def maxArr (ps : List Process) : Int := (ps.map Process.ArrivalTime).foldl max 0

theorem arr_le_maxArr (ps : List Process) (p : Process) (hp : p ∈ ps) :
    p.ArrivalTime ≤ maxArr ps :=
  (le_foldl_max (ps.map Process.ArrivalTime) 0).2 p.ArrivalTime
    (List.mem_map_of_mem Process.ArrivalTime hp)

/-! ### Concrete inputs used by witnesses and counterexamples -/

def exA : Process := ⟨"A", 0, 5, 1, false, 0, 0, 0⟩

def exB : Process := ⟨"B", 1, 3, 2, false, 0, 0, 0⟩

def exC : Process := ⟨"C", 2, 1, 3, false, 0, 0, 0⟩

def exPs : List Process := [exA, exB, exC]

def exPosPs : List Process :=
  [⟨"P", 1, 2, 1, false, 0, 0, 0⟩, ⟨"Q", 2, 4, 2, false, 0, 0, 0⟩]

def cexLateA : List Process :=
  [⟨"A", 5, 3, 1, false, 0, 0, 0⟩, ⟨"B", 0, 2, 1, false, 0, 0, 0⟩]

def cexZeroArr : List Process :=
  [⟨"A", 0, 5, 1, false, 0, 0, 0⟩, ⟨"B", 0, 3, 1, false, 0, 0, 0⟩]

def cexDone : List Process :=
  [⟨"A", 0, 5, 1, true, 0, 0, 0⟩, ⟨"B", 0, 3, 2, false, 0, 0, 0⟩]

/-! ### The claims -/

/-- C1: at every decision point of SJFPrioritySchedule's loop (a state whose
ready set is non-empty, i.e. `sjfpSelect` returns an index), the selected
process belongs to the ready set `availableOf` (not completed and arrived by
`currentTime`) and has the minimum burst duration there, with ties broken by
minimum priority value. -/
theorem C1_sjfp_selects_min_burst (procs : List Process) (ct : Int) (idx : Nat)
    (h : sjfpSelect procs ct = some idx) :
    idx ∈ availableOf procs ct ∧
    ∀ j ∈ availableOf procs ct,
      (procs.getD idx default).BurstDuration ≤ (procs.getD j default).BurstDuration ∧
      ((procs.getD j default).BurstDuration = (procs.getD idx default).BurstDuration →
        (procs.getD idx default).Priority ≤ (procs.getD j default).Priority) :=
  ⟨sjfpSelect_mem procs ct idx h, sjfpSelect_min procs ct idx h⟩

/-- Witness for C1 at a concrete decision point: at time 5, with A, B, C all
arrived and uncompleted, index 2 (process C, burst 1) is selected. -/
theorem C1_witness : sjfpSelect exPs 5 = some 2 ∧ 2 ∈ availableOf exPs 5 :=
  ⟨by decide, (C1_sjfp_selects_min_burst exPs 5 2 (by decide)).1⟩

/-- C2 counterexample: on [(A: arrival 5, burst 3), (B: arrival 0, burst 2)]
the code computes waiting −5 for A, but the claim's formula
`max(0, serviceTime − arrivalTime)` gives `max(0, 0 − 5) = 0`; the −5 is then
carried over into B (arrival ≤ 0), which the claim says receives 0. -/
theorem C2_counterexample :
    ((fcfsRun 0 0 0 0 0 cexLateA).rows).map Row.waiting = [-5, -5] ∧
      max 0 ((0 : Int) - 5) = 0 ∧ (-5 : Int) ≠ 0 := by decide

/-- C2 (amended): in FCFSSchedule, a process with arrivalTime > 0 gets waiting
time `serviceTime − arrivalTime` (serviceTime being the running sum of the
preceding burst durations), with NO clamping at 0; a process with
arrivalTime ≤ 0 reuses the waiting variable's previous value, which starts
at 0. -/
theorem C2_fcfs_waiting (ps : List Process) :
    ((FCFSSchedule ps).schedule).map Row.waiting = specFCFSWaits 0 0 ps :=
  fcfsRun_waits_spec ps 0 0 0 0 0

/-- C3 counterexample: FCFS on two processes that both arrive at time 0 emits
the segments (0,5) and (0,8): the second starts before the first stops, and
the covered time 5 + 8 = 13 differs from the burst total 8. -/
theorem C3_counterexample :
    (FCFSSchedule cexZeroArr).gantt = [⟨"A", 0, 5⟩, ⟨"B", 0, 8⟩] ∧
      nonOverlapB (FCFSSchedule cexZeroArr).gantt = false ∧
      totalCovered (FCFSSchedule cexZeroArr).gantt ≠ sumBurst cexZeroArr := by decide

/-- C3 (amended): for every input with positive burst durations, SJFSchedule's
timeline has one segment per process, is sorted by start, pairwise
non-overlapping, and covers exactly the burst total; FCFSSchedule satisfies
the same provided the first process arrives at time ≥ 0 and every later
process at time > 0 (otherwise the waiting carry-over produces overlapping
segments — see the counterexample); and SJFPrioritySchedule produces no
timeline segments at all. -/
theorem C3_timeline (ps : List Process)
    (hb : ∀ p ∈ ps, 0 < p.BurstDuration) :
    ((SJFSchedule ps).gantt.length = ps.length ∧
     sortedByStartB (SJFSchedule ps).gantt = true ∧
     nonOverlapB (SJFSchedule ps).gantt = true ∧
     totalCovered (SJFSchedule ps).gantt = sumBurst ps ∧
     (SJFSchedule ps).gantt.map TimeSlice.PID = (sortByBurst ps).map Process.ProcessID) ∧
    ((∀ p ∈ ps.take 1, 0 ≤ p.ArrivalTime) → (∀ p ∈ ps.tail, 0 < p.ArrivalTime) →
      ((FCFSSchedule ps).gantt.length = ps.length ∧
       sortedByStartB (FCFSSchedule ps).gantt = true ∧
       nonOverlapB (FCFSSchedule ps).gantt = true ∧
       totalCovered (FCFSSchedule ps).gantt = sumBurst ps ∧
       (FCFSSchedule ps).gantt.map TimeSlice.PID = ps.map Process.ProcessID)) ∧
    sjfpGantt ps = [] := by
  have hperm := isortLe_perm (fun p q : Process => decide (p.BurstDuration ≤ q.BurstDuration)) ps
  have hb' : ∀ p ∈ sortByBurst ps, 0 ≤ p.BurstDuration :=
    fun p hp => le_of_lt (hb p (hperm.mem_iff.mp hp))
  have hsum : sumBurst (sortByBurst ps) = sumBurst ps := by
    simpa [sumBurst] using (hperm.map Process.BurstDuration).sum_eq
  have hshow : (SJFSchedule ps).gantt = (sjfRun 0 0 0 (sortByBurst ps)).gantt := rfl
  have hshowF : (FCFSSchedule ps).gantt = (fcfsRun 0 0 0 0 0 ps).gantt := rfl
  refine ⟨⟨?_, ?_, ?_, ?_, ?_⟩, ?_, rfl⟩
  · rw [hshow, sjfRun_gantt_length]
    exact hperm.length_eq
  · rw [hshow]
    exact sjfRun_gantt_sorted _ 0 0 0 hb'
  · rw [hshow]
    exact sjfRun_gantt_nonOverlap _ 0 0 0
  · rw [hshow, sjfRun_gantt_total]
    exact hsum
  · rw [hshow]
    exact sjfRun_gantt_pids _ 0 0 0
  · intro h1 h2
    have hcons := fcfsRun_gantt_consecutive_zero ps h2 h1
    refine ⟨?_, ?_, ?_, ?_, ?_⟩
    · rw [hshowF, fcfsRun_gantt_length]
    · rw [hshowF, hcons]
      exact consecutiveSlices_sorted ps 0 (fun p hp => le_of_lt (hb p hp))
    · rw [hshowF, hcons]
      exact consecutiveSlices_nonOverlap ps 0
    · rw [hshowF, hcons]
      exact consecutiveSlices_total ps 0
    · rw [hshowF, hcons]
      exact consecutiveSlices_pids ps 0

/-- Witness for C3 at a concrete valid input (arrivals 1 and 2, bursts 2
and 4): the SJF timeline facts hold, and the FCFS timeline facts hold with
the arrival conditions discharged. -/
theorem C3_witness :
    ((SJFSchedule exPosPs).gantt.length = exPosPs.length ∧
     sortedByStartB (SJFSchedule exPosPs).gantt = true ∧
     nonOverlapB (SJFSchedule exPosPs).gantt = true ∧
     totalCovered (SJFSchedule exPosPs).gantt = sumBurst exPosPs ∧
     (SJFSchedule exPosPs).gantt.map TimeSlice.PID =
       (sortByBurst exPosPs).map Process.ProcessID) ∧
    ((FCFSSchedule exPosPs).gantt.length = exPosPs.length ∧
     sortedByStartB (FCFSSchedule exPosPs).gantt = true ∧
     nonOverlapB (FCFSSchedule exPosPs).gantt = true ∧
     totalCovered (FCFSSchedule exPosPs).gantt = sumBurst exPosPs ∧
     (FCFSSchedule exPosPs).gantt.map TimeSlice.PID = exPosPs.map Process.ProcessID) :=
  ⟨(C3_timeline exPosPs (by decide)).1,
   (C3_timeline exPosPs (by decide)).2.1 (by decide) (by decide)⟩

/-- C4: for every non-empty valid process set (arrivals ≥ 0, bursts > 0,
completed flags initially false), each implemented algorithm satisfies
sum(turnaround) = sum(waiting) + sum(burstDuration): FCFS and SJF over their
metric rows, Priority-SJF over the rows of any terminating run. -/
theorem C4_sum_identity (ps : List Process) (hne : ps ≠ [])
    (harr : ∀ p ∈ ps, 0 ≤ p.ArrivalTime)
    (hb : ∀ p ∈ ps, 0 < p.BurstDuration)
    (hflags : ∀ p ∈ ps, p.Completed = false) :
    sumTurnR (FCFSSchedule ps).schedule = sumWaitR (FCFSSchedule ps).schedule + sumBurst ps ∧
    sumTurnR (SJFSchedule ps).schedule = sumWaitR (SJFSchedule ps).schedule + sumBurst ps ∧
    (∀ (fuel : Nat) (res : SJFPResult), SJFPrioritySchedule fuel ps = some res →
      sumTurnP res.rows = sumWaitP res.rows + sumBurst ps) := by
  refine ⟨fcfsRun_sum_identity ps 0 0 0 0 0, ?_, ?_⟩
  · have h := sjfRun_sum_identity (sortByBurst ps) 0 0 0
    have hsum : sumBurst (sortByBurst ps) = sumBurst ps := by
      simpa [sumBurst] using ((isortLe_perm _ ps).map Process.BurstDuration).sum_eq
    rw [hsum] at h
    exact h
  · intro fuel res hres
    unfold SJFPrioritySchedule at hres
    cases hloop : sjfpLoop fuel (sjfpInit ps) with
    | none =>
      rw [hloop] at hres
      cases hres
    | some s' =>
      rw [hloop, Option.map_some'] at hres
      injection hres with h2
      subst h2
      obtain ⟨⟨hlen, hcnt, hrows, hB, hsum⟩, hcompl, hcu⟩ :=
        sjfpLoop_final ps.length (sumBurst ps) fuel _ s' hloop (sjfpInv_init ps hflags)
      have h0 : sumUncompBurst s'.procs = 0 := countUncomp_eq_zero _ hcu
      simp only [sjfpFinish]
      omega

/-- Witness for C4 at the spec's worked example (A, B, C). -/
theorem C4_witness :
    sumTurnR (FCFSSchedule exPs).schedule = sumWaitR (FCFSSchedule exPs).schedule + sumBurst exPs :=
  (C4_sum_identity exPs (by decide) (by decide) (by decide) (by decide)).1

/-- C5: SJFSchedule first sorts by ascending burst duration (the processed
list is pairwise nondecreasing in burst), and then, with the clock starting
at 0, each row's (waiting, completion, turnaround) triple equals the spec
recurrence: wait = max(0, clock − arrival), the clock advances to
max(clock, arrival) + burst (recorded as the completion column), and
turnaround = newClock − arrival. -/
theorem C5_sjf_recurrence (ps : List Process) :
    ((SJFSchedule ps).schedule).map (fun r => (r.waiting, r.completion, r.turnaround)) =
      specSJFSteps 0 (sortByBurst ps) ∧
    List.Pairwise (fun p q : Process => p.BurstDuration ≤ q.BurstDuration) (sortByBurst ps) := by
  constructor
  · exact sjfRun_rows_spec (sortByBurst ps) 0 0 0
  · have htot : ∀ p q : Process, (decide (p.BurstDuration ≤ q.BurstDuration)) = true ∨
        (decide (q.BurstDuration ≤ p.BurstDuration)) = true := by
      intro p q
      rcases le_total p.BurstDuration q.BurstDuration with h | h
      · exact Or.inl (decide_eq_true h)
      · exact Or.inr (decide_eq_true h)
    have htrans : ∀ p q r : Process, decide (p.BurstDuration ≤ q.BurstDuration) = true →
        decide (q.BurstDuration ≤ r.BurstDuration) = true →
        decide (p.BurstDuration ≤ r.BurstDuration) = true := by
      intro p q r h1 h2
      exact decide_eq_true (le_trans (of_decide_eq_true h1) (of_decide_eq_true h2))
    exact (isortLe_pairwise _ htot htrans ps).imp (fun h => of_decide_eq_true h)

/-- C6: SJFPrioritySchedule terminates for every input whose completed flags
start false and whose burst durations are all positive (arrival times are
finite integers): some finite fuel makes the loop return.  Moreover, whenever
the ready set is empty the loop advances `currentTime` by exactly 1 and
retries. -/
theorem C6_sjfp_terminates (ps : List Process)
    (hflags : ∀ p ∈ ps, p.Completed = false)
    (hb : ∀ p ∈ ps, 0 < p.BurstDuration) :
    (∃ fuel, (SJFPrioritySchedule fuel ps).isSome = true) ∧
    (∀ (s : SJFPState) (fuel : Nat), s.completed < s.procs.length →
      sjfpSelect s.procs s.currentTime = none →
      sjfpLoop (fuel + 1) s = sjfpLoop fuel { s with currentTime := s.currentTime + 1 }) := by
  constructor
  · refine ⟨ps.length + (maxArr ps + 1).toNat, ?_⟩
    unfold SJFPrioritySchedule
    rw [Option.isSome_map']
    apply sjfpLoop_terminates (maxArr ps)
    · intro p hp
      exact arr_le_maxArr ps p ((sortByArrival_perm ps).mem_iff.mp hp)
    · intro p hp
      exact hb p ((sortByArrival_perm ps).mem_iff.mp hp)
    · show 0 + countUncomp (sortByArrival ps) = (sortByArrival ps).length
      have hflags' : ∀ p ∈ sortByArrival ps, p.Completed = false :=
        fun p hp => hflags p ((sortByArrival_perm ps).mem_iff.mp hp)
      simp only [countUncomp, uncomp_eq_self _ hflags']
      omega
    · show countUncomp (sortByArrival ps) + (maxArr ps + 1 - (0 : Int)).toNat ≤
        ps.length + (maxArr ps + 1).toNat
      have h1 : countUncomp (sortByArrival ps) ≤ (sortByArrival ps).length :=
        List.length_filter_le _ _
      have h2 : (sortByArrival ps).length = ps.length := (sortByArrival_perm ps).length_eq
      omega
  · intro s fuel hc hsel
    rw [sjfpLoop, if_pos hc]
    simp only [hsel]
    rfl

/-- Witness for C6 at the spec's worked example. -/
theorem C6_witness : ∃ fuel, (SJFPrioritySchedule fuel exPs).isSome = true :=
  (C6_sjfp_terminates exPs (by decide) (by decide)).1

/-- C7 counterexample: RRSchedule's body is empty, so on a non-empty input it
produces neither timeline segments nor metric rows nor aggregates — its whole
output is empty, while e.g. FCFS produces one segment per process. -/
theorem C7_counterexample :
    RRSchedule "Round Robin" exPs = [] ∧ (FCFSSchedule exPs).gantt.length = 3 := by decide

/-- C7 (amended): FCFSSchedule and SJFSchedule each produce a timeline with one
TimeSlice per process together with one metric row per process and the three
aggregates; SJFPrioritySchedule produces one metric row per process and the
three aggregates but no timeline; RRSchedule is an unimplemented stub that
produces nothing. -/
theorem C7_outputs (ps : List Process) (hflags : ∀ p ∈ ps, p.Completed = false) :
    (FCFSSchedule ps).gantt.length = ps.length ∧
    (FCFSSchedule ps).schedule.length = ps.length ∧
    (SJFSchedule ps).gantt.length = ps.length ∧
    (SJFSchedule ps).schedule.length = ps.length ∧
    (∀ (fuel : Nat) (res : SJFPResult), SJFPrioritySchedule fuel ps = some res →
      res.rows.length = ps.length) ∧
    (∀ title, RRSchedule title ps = []) := by
  refine ⟨fcfsRun_gantt_length ps 0 0 0 0 0, fcfsRun_rows_length ps 0 0 0 0 0, ?_, ?_, ?_, ?_⟩
  · show (sjfRun 0 0 0 (sortByBurst ps)).gantt.length = ps.length
    rw [sjfRun_gantt_length]
    exact (isortLe_perm _ ps).length_eq
  · show (sjfRun 0 0 0 (sortByBurst ps)).rows.length = ps.length
    rw [sjfRun_rows_length]
    exact (isortLe_perm _ ps).length_eq
  · intro fuel res hres
    unfold SJFPrioritySchedule at hres
    cases hloop : sjfpLoop fuel (sjfpInit ps) with
    | none =>
      rw [hloop] at hres
      cases hres
    | some s' =>
      rw [hloop, Option.map_some'] at hres
      injection hres with h2
      subst h2
      obtain ⟨⟨hlen, hcnt, hrows, -, -⟩, hcompl, hcu⟩ :=
        sjfpLoop_final ps.length (sumBurst ps) fuel _ s' hloop (sjfpInv_init ps hflags)
      simp only [sjfpFinish]
      omega
  · intro title
    rfl

/-- Witness for C7 at the spec's worked example. -/
theorem C7_witness : (FCFSSchedule exPs).gantt.length = exPs.length :=
  (C7_outputs exPs (by decide)).1

/-- C8: on the empty input no algorithm guards the averages: each of them runs
to completion and computes its aggregates as divisions whose divisor is the
process count, which is 0 — there is no refusal branch and no documented
zero-report, the division is reached unconditionally (in the Go source these
float64 divisions produce NaN). -/
theorem C8_empty_unguarded :
    ([] : List Process).length = 0 ∧
    (FCFSSchedule []).aveWait =
      ((fcfsRun 0 0 0 0 0 []).totalWait : ℚ) / (([] : List Process).length : ℚ) ∧
    (SJFSchedule []).aveWait =
      ((sjfRun 0 0 0 (sortByBurst [])).totalWait : ℚ) /
        ((sortByBurst ([] : List Process)).length : ℚ) ∧
    SJFPrioritySchedule 0 [] = some (sjfpFinish (sjfpInit [])) ∧
    (sjfpFinish (sjfpInit [])).avgWait =
      ((sjfpInit ([] : List Process)).totalWait : ℚ) /
        ((sjfpInit ([] : List Process)).procs.length : ℚ) :=
  ⟨rfl, rfl, rfl, rfl, rfl⟩

/-- C9: for every non-empty input (flags initially false for the Priority-SJF
part), each algorithm computes throughput as the process count divided by the
last completion time (FCFS: the `lastCompletion` scalar; SJF and Priority-SJF:
the final clock), and the throughput is strictly positive whenever that time
is positive. -/
theorem C9_throughput (ps : List Process) (hne : ps ≠ [])
    (hflags : ∀ p ∈ ps, p.Completed = false) :
    ((FCFSSchedule ps).aveThroughput =
        (ps.length : ℚ) / ((fcfsRun 0 0 0 0 0 ps).lastCompletion : ℚ) ∧
      (0 < (fcfsRun 0 0 0 0 0 ps).lastCompletion → 0 < (FCFSSchedule ps).aveThroughput)) ∧
    ((SJFSchedule ps).aveThroughput =
        (ps.length : ℚ) / ((sjfRun 0 0 0 (sortByBurst ps)).currentTime : ℚ) ∧
      (0 < (sjfRun 0 0 0 (sortByBurst ps)).currentTime → 0 < (SJFSchedule ps).aveThroughput)) ∧
    (∀ (fuel : Nat) (res : SJFPResult), SJFPrioritySchedule fuel ps = some res →
      res.throughput = (ps.length : ℚ) / (res.finalTime : ℚ) ∧
        (0 < res.finalTime → 0 < res.throughput)) := by
  have hlpos : 0 < ps.length := List.length_pos.mpr hne
  have hnum : (0 : ℚ) < (ps.length : ℚ) := by exact_mod_cast hlpos
  have hslen : (sortByBurst ps).length = ps.length := (isortLe_perm _ ps).length_eq
  refine ⟨⟨rfl, ?_⟩, ⟨?_, ?_⟩, ?_⟩
  · intro h
    have hden : (0 : ℚ) < ((fcfsRun 0 0 0 0 0 ps).lastCompletion : ℚ) := by exact_mod_cast h
    exact div_pos hnum hden
  · show ((sortByBurst ps).length : ℚ) / ((sjfRun 0 0 0 (sortByBurst ps)).currentTime : ℚ) =
      (ps.length : ℚ) / ((sjfRun 0 0 0 (sortByBurst ps)).currentTime : ℚ)
    rw [hslen]
  · intro h
    have hden : (0 : ℚ) < ((sjfRun 0 0 0 (sortByBurst ps)).currentTime : ℚ) := by exact_mod_cast h
    show (0 : ℚ) < ((sortByBurst ps).length : ℚ) / ((sjfRun 0 0 0 (sortByBurst ps)).currentTime : ℚ)
    rw [hslen]
    exact div_pos hnum hden
  · intro fuel res hres
    unfold SJFPrioritySchedule at hres
    cases hloop : sjfpLoop fuel (sjfpInit ps) with
    | none =>
      rw [hloop] at hres
      cases hres
    | some s' =>
      rw [hloop, Option.map_some'] at hres
      injection hres with h2
      subst h2
      obtain ⟨⟨hlen, -, -, -, -⟩, -, -⟩ :=
        sjfpLoop_final ps.length (sumBurst ps) fuel _ s' hloop (sjfpInv_init ps hflags)
      constructor
      · show (s'.procs.length : ℚ) / (s'.currentTime : ℚ) =
          (ps.length : ℚ) / (s'.currentTime : ℚ)
        rw [hlen]
      · intro h
        have hden : (0 : ℚ) < (s'.currentTime : ℚ) := by exact_mod_cast h
        show (0 : ℚ) < (s'.procs.length : ℚ) / (s'.currentTime : ℚ)
        rw [hlen]
        exact div_pos hnum hden

/-- Witness for C9 at the spec's worked example: FCFS throughput is positive. -/
theorem C9_witness : 0 < (FCFSSchedule exPs).aveThroughput :=
  ((C9_throughput exPs (by decide) (by decide)).1).2 (by decide)

/-- C10: if any process enters SJFPrioritySchedule with its Completed flag
already true, the loop never terminates: pre-completed processes are excluded
from the ready set and never increment the completion counter, so the counter
never reaches the process count and every amount of fuel is exhausted. -/
theorem C10_precompleted_diverges (ps : List Process)
    (h : ∃ p ∈ ps, p.Completed = true) :
    ∀ fuel, SJFPrioritySchedule fuel ps = none := by
  intro fuel
  unfold SJFPrioritySchedule
  rw [sjfpLoop_diverges fuel (sjfpInit ps) ?_]
  · rfl
  · obtain ⟨p, hp, hpc⟩ := h
    have hp' : p ∈ sortByArrival ps := (sortByArrival_perm ps).mem_iff.mpr hp
    have hlt : countUncomp (sortByArrival ps) < (sortByArrival ps).length := by
      apply List.length_filter_lt_length_iff_exists.mpr
      exact ⟨p, hp', by simp [hpc]⟩
    show (sjfpInit ps).completed + countUncomp (sjfpInit ps).procs < (sjfpInit ps).procs.length
    simpa [sjfpInit] using hlt

/-- Witness for C10: with A pre-completed, 50 fuel units are exhausted with
the loop still running. -/
theorem C10_witness : SJFPrioritySchedule 50 cexDone = none :=
  C10_precompleted_diverges cexDone (by decide) 50

end Sched
